import Mathlib

/-!
Verification of the print-jobber service (src/main.rs) against its
natural-language specification.

Shallow embedding conventions:
* Rust `&str` / `String` values are modelled as `List Char` (the sequence of
  Unicode scalar values of a valid-UTF-8 string); byte lengths (`str::len`)
  are recovered as the sum of `Char.utf8Size` over the characters.
* The request body (`Bytes`) is modelled as `Option (List Char)`:
  `some s` is a body that is valid UTF-8 and decodes to `s`, `none` is a body
  that is not valid UTF-8 (`std::str::from_utf8` is the external decoder).
* Output written through `write_chunk` is collected as a list of chunks
  (`List (List Char)`), in emission order.  The console fallback of the
  handler additionally brackets the document with 48-dash separator lines.
* `f64` values reaching the moon-phase / daylight-bar computations are
  modelled as exact rationals; for the concrete dates and times settled here
  every intermediate `f64` value is exactly representable (and `%` on `f64`
  is an exact operation), so the rational model agrees bit-for-bit with the
  Rust computation on these inputs.  The literal `29.53` is modelled by the
  exact value of its `f64` rounding, `8311956062265672 / 2^48`.
-/

/-- `CHARS_PER_LINE` from src/main.rs line 44: the fixed width of the output
medium in character columns. -/
def CHARS_PER_LINE : Nat := 48

/-- Rust `char::is_ascii_whitespace`: space, tab, line feed, form feed,
carriage return. -/
def isWs (c : Char) : Bool :=
  c.toNat = 32 || c.toNat = 9 || c.toNat = 10 || c.toNat = 12 || c.toNat = 13

/-- Byte length of the UTF-8 encoding of a character list; this is Rust
`str::len` for the corresponding string slice. -/
def utf8Len (l : List Char) : Nat := (l.map Char.utf8Size).sum

/-- Core of `str::split_ascii_whitespace`: returns the maximal non-whitespace
prefix token (possibly empty) of the list together with the remaining tokens. -/
def splitWsCore : List Char → List Char × List (List Char)
  | [] => ([], [])
  | c :: cs =>
    let r := splitWsCore cs
    if isWs c then ([], if r.1 = [] then r.2 else r.1 :: r.2)
    else (c :: r.1, r.2)

/-- Rust `str::split_ascii_whitespace` collected to a list: the maximal
ASCII-whitespace-delimited tokens of the input, in order, with no empty
tokens. -/
def splitAsciiWs (l : List Char) : List (List Char) :=
  let r := splitWsCore l
  if r.1 = [] then r.2 else r.1 :: r.2

/-- Strip one trailing carriage return (used by `str::lines` on a line that
was terminated by `\r\n`). -/
def stripTrailCr (l : List Char) : List Char :=
  if l.getLast? = some '\r' then l.dropLast else l

/-- Accumulating worker for Rust `str::lines`: `acc` is the current line read
so far.  A `\n` terminates a line (stripping one `\r` directly before it);
a final line without terminator is still yielded; an empty input yields no
lines. -/
def linesAux : List Char → List Char → List (List Char)
  | [], acc => if acc = [] then [] else [acc]
  | c :: cs, acc =>
    if c = '\n' then stripTrailCr acc :: linesAux cs []
    else linesAux cs (acc ++ [c])

/-- Rust `str::lines` (src/main.rs lines 123 and 128 iterate this). -/
def rustLines (s : List Char) : List (List Char) := linesAux s []

/-- Wrapped-mode inner loop of `print` (src/main.rs lines 132-152) over the
tokens of one input line.  State: `cw` = `chars_written`, `ec` = `extra_char`.
Returns the chunks passed to `write_chunk`, in order, paired with `some`
final state on success or `none` when a token longer than `CHARS_PER_LINE`
bytes aborted the request (line 135).  On abort the chunks already emitted
for earlier tokens are still returned: the Rust code has already written
them. -/
def wrapTokens : List (List Char) → Nat → Nat → List (List Char) × Option (Nat × Nat)
  | [], cw, ec => ([], some (cw, ec))
  | t :: ts, cw, ec =>
    if utf8Len t > CHARS_PER_LINE then ([], none)
    else if cw + utf8Len t + ec > CHARS_PER_LINE then
      -- forced break (line 138-142): newline chunk, state reset to (0, 0);
      -- the separator branch (line 144) is then not taken
      let rest := wrapTokens ts (utf8Len t) 1
      (['\n'] :: t :: rest.1, rest.2)
    else
      -- no break: optional single-space separator, then the token
      let rest := wrapTokens ts (cw + ec + utf8Len t) 1
      ((if ec = 1 then [[' ']] else []) ++ t :: rest.1, rest.2)

/-- Wrapped-mode outer loop of `print` (src/main.rs lines 128-155) over the
input lines.  Each line is split into tokens and wrapped starting from the
fresh state `(0, 0)`; a trailing newline chunk ends every line (line 154).
The boolean is `false` when an oversized token aborted the request. -/
def wrapLines : List (List Char) → List (List Char) × Bool
  | [] => ([], true)
  | l :: ls =>
    let r := wrapTokens (splitAsciiWs l) 0 0
    match r.2 with
    | none => (r.1, false)
    | some _ =>
      let rest := wrapLines ls
      (r.1 ++ ['\n'] :: rest.1, rest.2)

/-- Raw-mode loop of `print` (src/main.rs lines 122-126): each line is written
verbatim followed by a newline chunk. -/
def rawChunks (s : List Char) : List (List Char) :=
  (rustLines s).flatMap (fun l => [l, ['\n']])

/-- Transport-level outcomes the handlers can produce. -/
inductive Status where
  | unprocessableEntity
  | internalServerError
  | badGateway
  | notFound
deriving DecidableEq

/-- Chunk-level behaviour of the `print` handler (src/main.rs lines 108-156):
the ordered list of chunks passed to `write_chunk` together with the error
status, if any.  `none` as the body models a request body that is not valid
UTF-8 (rejected at line 113 before any output). -/
def printRun : Option (List Char) → Bool → List (List Char) × Option Status
  | none, _ => ([], some .unprocessableEntity)
  | some s, true => (rawChunks s, none)
  | some s, false =>
    let r := wrapLines (rustLines s)
    (r.1, if r.2 then none else some .unprocessableEntity)

/-- The 48-dash separator line printed by the console fallback. -/
def sepLine : List Char := List.replicate CHARS_PER_LINE '-'

/-- Console output of the `print` handler on the fallback (no device) path:
an opening separator line (src/main.rs lines 117-120), the chunks, and on
success a closing separator line (line 166).  An oversized token returns the
validation error after the chunks already written (line 135), without the
closing separator. -/
def printConsole : Option (List Char) → Bool → List Char × Option Status
  | none, _ => ([], some .unprocessableEntity)
  | some s, true =>
    (sepLine ++ '\n' :: ((rawChunks s).flatten ++ sepLine ++ ['\n']), none)
  | some s, false =>
    let r := wrapLines (rustLines s)
    if r.2 then (sepLine ++ '\n' :: (r.1.flatten ++ sepLine ++ ['\n']), none)
    else (sepLine ++ '\n' :: r.1.flatten, some .unprocessableEntity)

/-- Decidable statement that every whitespace-delimited token of the input
fits within `CHARS_PER_LINE` bytes. -/
def tokensFit (s : List Char) : Bool :=
  (splitAsciiWs s).all (fun t => decide (utf8Len t ≤ CHARS_PER_LINE))

/-- Split a character list at `\n` characters (every segment, including a
final empty one when the list ends in `\n`); used to speak about the output
lines of the emitted chunk stream. -/
def splitNl : List Char → List (List Char)
  | [] => [[]]
  | c :: cs =>
    let r := splitNl cs
    if c = '\n' then [] :: r
    else
      match r with
      | [] => [[c]]
      | h :: t => (c :: h) :: t

/-- Split a character list at every occurrence of `sep`, keeping empty
segments: Rust `str::split(sep)` collected to a list. -/
def splitOnChar (sep : Char) : List Char → List (List Char)
  | [] => [[]]
  | c :: cs =>
    match splitOnChar sep cs with
    | [] => if c = sep then [[], []] else [[c]]
    | h :: t => if c = sep then [] :: h :: t else (c :: h) :: t

/-- Rust `i32` division: truncation toward zero (both arguments here are
used with positive divisors; division by zero cannot occur in this
program). -/
def rdiv (a b : Int) : Int :=
  if (0 ≤ a) = (0 ≤ b) then ((a.natAbs / b.natAbs : Nat) : Int)
  else -((a.natAbs / b.natAbs : Nat) : Int)

/-- Value of an ASCII digit, `none` for any other character. -/
def digitVal? (c : Char) : Option Nat :=
  if '0' ≤ c ∧ c ≤ '9' then some (c.toNat - '0'.toNat) else none

/-- Accumulating decimal parse of a digit string; `none` when a non-digit
appears. -/
def parseNatAcc : List Char → Nat → Option Nat
  | [], acc => some acc
  | c :: cs, acc =>
    match digitVal? c with
    | none => none
    | some d => parseNatAcc cs (acc * 10 + d)

/-- Rust `str::parse::<i32>()`: optional sign, one or more ASCII digits,
rejecting values outside the `i32` range. -/
def parseI32 (l : List Char) : Option Int :=
  let core : List Char → Bool → Option Int := fun ds neg =>
    match ds with
    | [] => none
    | _ =>
      (parseNatAcc ds 0).bind fun n =>
        let v : Int := if neg then -(n : Int) else (n : Int)
        if -(2 ^ 31) ≤ v ∧ v ≤ 2 ^ 31 - 1 then some v else none
  match l with
  | '-' :: rest => core rest true
  | '+' :: rest => core rest false
  | _ => core l false

/-- Truncation toward zero of a rational: the rounding used by Rust `as`
casts from `f64` to integer types and by `f64::rem` (`%`). -/
def qtrunc (q : ℚ) : Int := if 0 ≤ q then ⌊q⌋ else -⌊-q⌋

/-- Rust `f64` `%` (fmod): `x - y * trunc (x / y)`.  On `f64` this operation
is exact; all values it is applied to in the claims settled here are exactly
representable, so the rational model agrees with the Rust computation. -/
def qfmod (x y : ℚ) : ℚ := x - y * (qtrunc (x / y) : ℚ)

/-- The `29.53` literal of src/main.rs line 220, as the exact value of its
`f64` rounding: `29.53` rounds to `8311956062265672 * 2 ^ (-48)`. -/
def SYNODIC : ℚ := 8311956062265672 / 2 ^ 48

/-- Rust `as u8` cast from `f64`: saturating at `0` and `255`, truncating
toward zero (the argument is never NaN in this program: it is a finite
remainder). -/
def f64ToU8 (q : ℚ) : Nat :=
  if q < 0 then 0 else min 255 (qtrunc q).toNat

/-- Rust `as usize` cast from `f64`: saturating at `0` and `usize::MAX`,
truncating toward zero. -/
def f64ToUsize (q : ℚ) : Nat :=
  if q < 0 then 0 else min (2 ^ 64 - 1) (qtrunc q).toNat

/-- Bucketing of the moon-phase day count (src/main.rs lines 222-231); the
scrutinee there is a `u8`, so the wildcard arm covers `24..=255`. -/
def moonBucket (n : Nat) : String × String :=
  if n ≤ 1 then ("@", "New Moon")
  else if n ≤ 6 then (")", "Waxing Crescent")
  else if n ≤ 8 then ("D", "First Quarter")
  else if n ≤ 13 then ("D", "Waxing Gibbous")
  else if n ≤ 16 then ("O", "Full Moon")
  else if n ≤ 21 then ("C", "Waning Gibbous")
  else if n ≤ 23 then ("C", "Last Quarter")
  else ("(", "Waning Crescent")

/-- Julian day number of a civil date (src/main.rs lines 215-218), with
`i32` arithmetic modelled exactly (the dates settled here are far from the
`i32` bounds). -/
def jdn (year month day : Int) : Int :=
  let a := rdiv (14 - month) 12
  let y := year + 4800 - a
  let m := month + 12 * a - 3
  day + rdiv (153 * m + 2) 5 + 365 * y + rdiv y 4 - rdiv y 100 + rdiv y 400 - 32045

/-- Day offset into the synodic month (src/main.rs lines 219-220):
`((days_since % 29.53) + 29.53) % 29.53`. -/
def phaseQ (daysSince : Int) : ℚ :=
  qfmod (qfmod (daysSince : ℚ) SYNODIC + SYNODIC) SYNODIC

/-- The `moon_phase` function (src/main.rs lines 206-232): parse the date on
`-`, keeping the components that parse as `i32`; fewer than three components
yield the Unknown phase; otherwise bucket the day offset from the reference
new moon (6 Jan 2000, Julian day 2451550). -/
def moon_phase (date : String) : String × String :=
  match (splitOnChar '-' date.toList).filterMap parseI32 with
  | year :: month :: day :: _ =>
    moonBucket (f64ToU8 (phaseQ (jdn year month day - 2451550)))
  | _ => ("?", "Unknown")

/-- Column loop of `render_daylight_bar` (src/main.rs lines 238-253): one
character per column of the 48-column strip. -/
def daylightBarCols (sunrise sunset : ℚ) : List Char :=
  (List.range CHARS_PER_LINE).map fun (col : Nat) =>
    let hour : ℚ := ((col : ℚ) / (CHARS_PER_LINE : ℚ)) * 24
    let srCol : Nat := f64ToUsize (sunrise / 24 * (CHARS_PER_LINE : ℚ))
    let ssCol : Nat := f64ToUsize (sunset / 24 * (CHARS_PER_LINE : ℚ))
    if col = srCol then '>'
    else if col = ssCol then '<'
    else if sunrise < hour ∧ hour < sunset then '='
    else '-'

/-- The `weather_code_to_description` lookup table (src/main.rs
lines 172-190). -/
def weather_code_to_description (code : Nat) : String :=
  match code with
  | 0 => "Clear sky"
  | 1 => "Mainly clear"
  | 2 => "Partly cloudy"
  | 3 => "Overcast"
  | 45 | 48 => "Foggy"
  | 51 | 53 | 55 => "Drizzle"
  | 61 | 63 | 65 => "Rain"
  | 66 | 67 => "Freezing rain"
  | 71 | 73 | 75 => "Snow"
  | 77 => "Snow grains"
  | 80 | 81 | 82 => "Rain showers"
  | 85 | 86 => "Snow showers"
  | 95 => "Thunderstorm"
  | 96 | 99 => "Thunderstorm with hail"
  | _ => "Unknown"

/-- The `format_time` function (src/main.rs lines 192-195): the part of an
ISO timestamp after `T`, or the whole string when there is no `T`. -/
def format_time (iso : String) : String :=
  match (splitOnChar 'T' iso.toList).get? 1 with
  | some t => String.mk t
  | none => iso

/-- Simple decimal subset of Rust `str::parse::<f64>()` (optional sign,
digits, optional fractional part), with the value taken exactly as a
rational; `f64` rounding and the more exotic accepted forms (exponents,
infinities) are abstracted away — no claim settled here depends on the
parsed value. -/
def parseDecimalQ (l : List Char) : Option ℚ :=
  let digits : List Char → Bool := fun ds => ds.all fun c => decide ('0' ≤ c ∧ c ≤ '9')
  let toNatQ : List Char → ℚ := fun ds => ((ds.foldl (fun acc c => acc * 10 + (c.toNat - '0'.toNat)) 0 : Nat) : ℚ)
  let core : List Char → Option ℚ := fun ds =>
    match splitOnChar '.' ds with
    | [ip] => if ip ≠ [] ∧ digits ip then some (toNatQ ip) else none
    | [ip, fp] =>
      if (ip ≠ [] ∨ fp ≠ []) ∧ digits ip ∧ digits fp then
        some (toNatQ ip + toNatQ fp / (10 ^ fp.length : ℚ))
      else none
    | _ => none
  match l with
  | '-' :: rest => (core rest).map (fun q => -q)
  | '+' :: rest => core rest
  | _ => core l

/-- The `parse_hour` function (src/main.rs lines 197-204): fractional hour of
an ISO timestamp, with mid-day and zero-minute fallbacks for malformed
components. -/
def parse_hour (iso : String) : ℚ :=
  let time :=
    match (splitOnChar 'T' iso.toList).get? 1 with
    | some t => t
    | none => "12:00".toList
  let parts := splitOnChar ':' time
  let hour : ℚ :=
    match parts with
    | p :: _ => (parseDecimalQ p).getD 12
    | [] => 12
  let minute : ℚ :=
    match parts.get? 1 with
    | some m => (parseDecimalQ m).getD 0
    | none => 0
  hour + minute / 60

/-- Sampled every-third-hour temperatures of `render_hourly_temps`
(src/main.rs lines 272-277): hours 0,3,…,21 that are within the series. -/
def hourlySamples (temps : List ℚ) : List ℚ :=
  ((List.range 8).map (fun i => 3 * i)).filterMap fun h => temps.get? h

/-- The `daily` object of the parsed open-meteo response (src/main.rs
lines 19-33); `f64` fields as exact rationals, `u8` fields as naturals. -/
structure DailyWeather where
  time : List String
  temperature_2m_max : List ℚ
  temperature_2m_min : List ℚ
  apparent_temperature_max : List ℚ
  apparent_temperature_min : List ℚ
  precipitation_probability_max : List Nat
  weather_code : List Nat
  sunrise : List String
  sunset : List String
  uv_index_max : List ℚ
  wind_speed_10m_max : List ℚ
  wind_gusts_10m_max : List ℚ

/-- The `hourly` object of the parsed response (src/main.rs lines 35-38). -/
structure HourlyWeather where
  temperature_2m : List ℚ

/-- A successfully parsed `WeatherResponse` (src/main.rs lines 13-17). -/
structure WeatherResponse where
  daily : DailyWeather
  hourly : HourlyWeather

/-- One line written to the output sink by the `weather` handler.  The text
of each line is abstracted to the constructor for the `format!` pattern used
at the corresponding source line plus its computed arguments (numeric
display formatting such as `{:.0}` is not modelled; no claim depends on
it). -/
inductive DocLine where
  | border
  | divider
  | blank
  | cityHeader
  | dateLine (d : String)
  | descLine (d : String)
  | highLow (hi lo : ℚ)
  | feels (hi lo : ℚ)
  | precipUv (p : Nat) (uv : ℚ)
  | wind (speed gusts : ℚ)
  | hourlyHeading
  | hourlyHours
  | hourlyTemps (samples : List ℚ)
  | daylightHeading
  | daylightLegend
  | daylightScale
  | daylightBarLine (bar : List Char)
  | daylightAxis
  | sunTimes (sr ss : String)
  | moonLine (sym name : String)

/-- One operation performed on the output sink by the `weather` handler:
a left-justified or centered line write (`writeln_left!` / `writeln_center!`,
src/main.rs lines 324-344). -/
inductive SinkOp where
  | writeLeft (l : DocLine)
  | writeCenter (l : DocLine)

/-- Document composition of the `weather` handler (src/main.rs
lines 306-388) as the ordered list of sink operations.  Every `daily`
array is read at index 0; an out-of-bounds read — a Rust panic — is
modelled as `none`.  (In the Rust code the reads at lines 357-363 are
interleaved with the writes; a panic there aborts the handler mid-document.
This model performs all reads first, which does not affect whether a panic
occurs.)  `weatherDocOps` is the ordered list of writes of lines 347-388
once every argument has been computed. -/
def weatherDocOps (date desc srTime ssTime : String) (tmax tmin amax amin : ℚ)
    (precip : Nat) (uv wspeed wgusts : ℚ) (samples : List ℚ) (bar : List Char)
    (moonSym moonName : String) : List SinkOp :=
  [ SinkOp.writeLeft DocLine.border,                         -- line 347
    SinkOp.writeCenter DocLine.cityHeader,                   -- line 348
    SinkOp.writeCenter (DocLine.dateLine date),              -- line 349
    SinkOp.writeLeft DocLine.border,                         -- line 350
    SinkOp.writeCenter DocLine.blank,                        -- line 351
    SinkOp.writeCenter (DocLine.descLine desc),              -- line 352
    SinkOp.writeCenter DocLine.blank,                        -- line 353
    SinkOp.writeLeft DocLine.divider,                        -- line 356
    SinkOp.writeLeft (DocLine.highLow tmax tmin),            -- line 357
    SinkOp.writeLeft (DocLine.feels amax amin),              -- line 358
    SinkOp.writeLeft DocLine.divider,                        -- line 359
    SinkOp.writeLeft (DocLine.precipUv precip uv),           -- line 362
    SinkOp.writeLeft (DocLine.wind wspeed wgusts),           -- line 363
    SinkOp.writeLeft DocLine.divider,                        -- line 364
    SinkOp.writeLeft DocLine.blank,                          -- line 365
    SinkOp.writeCenter DocLine.hourlyHeading,                -- line 368
    SinkOp.writeLeft DocLine.hourlyHours,                    -- lines 369-371
    SinkOp.writeLeft (DocLine.hourlyTemps samples),          -- lines 369-371
    SinkOp.writeLeft DocLine.divider,                        -- line 372
    SinkOp.writeLeft DocLine.blank,                          -- line 373
    SinkOp.writeCenter DocLine.daylightHeading,              -- line 376
    SinkOp.writeLeft DocLine.daylightLegend,                 -- line 377
    SinkOp.writeLeft DocLine.daylightScale,                  -- lines 378-380
    SinkOp.writeLeft (DocLine.daylightBarLine bar),          -- lines 378-380
    SinkOp.writeLeft DocLine.daylightAxis,                   -- lines 378-380
    SinkOp.writeLeft (DocLine.sunTimes srTime ssTime),       -- line 381
    SinkOp.writeLeft DocLine.divider,                        -- line 382
    SinkOp.writeLeft DocLine.blank,                          -- line 383
    SinkOp.writeCenter (DocLine.moonLine moonSym moonName),  -- line 386
    SinkOp.writeLeft DocLine.blank,                          -- line 387
    SinkOp.writeLeft DocLine.border ]                        -- line 388

def weatherDoc (r : WeatherResponse) : Option (List SinkOp) :=
  (r.daily.weather_code.get? 0).bind fun code =>             -- line 308
  (r.daily.sunrise.get? 0).bind fun sunriseIso =>            -- line 312
  (r.daily.sunset.get? 0).bind fun sunsetIso =>              -- line 313
  (r.daily.time.get? 0).bind fun date =>                     -- lines 314, 349
  (r.daily.temperature_2m_max.get? 0).bind fun tmax =>       -- line 357
  (r.daily.temperature_2m_min.get? 0).bind fun tmin =>       -- line 357
  (r.daily.apparent_temperature_max.get? 0).bind fun amax => -- line 358
  (r.daily.apparent_temperature_min.get? 0).bind fun amin => -- line 358
  (r.daily.precipitation_probability_max.get? 0).bind fun precip =>  -- line 362
  (r.daily.uv_index_max.get? 0).bind fun uv =>               -- line 362
  (r.daily.wind_speed_10m_max.get? 0).bind fun wspeed =>     -- line 363
  (r.daily.wind_gusts_10m_max.get? 0).map fun wgusts =>      -- line 363
    weatherDocOps date (weather_code_to_description code)
      (format_time sunriseIso) (format_time sunsetIso) tmax tmin amax amin
      precip uv wspeed wgusts (hourlySamples r.hourly.temperature_2m)
      (daylightBarCols (parse_hour sunriseIso) (parse_hour sunsetIso))
      (moon_phase date).1 (moon_phase date).2

/-- End-to-end behaviour of the `weather` handler (src/main.rs
lines 283-399) on the fallback (no device) path.  The input is the outcome
of the single outbound request to the fixed-coordinate forecast URL:
`none` when the fetch or the JSON parse fails (both mapped to BAD_GATEWAY
at lines 293-304, before any sink operation), `some r` for a parsed
response.  The outer `none` of the result models a panic during document
composition. -/
def weatherRun (fetch : Option WeatherResponse) : Option (List SinkOp × Option Status) :=
  match fetch with
  | none => some ([], some .badGateway)
  | some r => (weatherDoc r).map (fun ops => (ops, none))

/-- Running width of the current (last, still unterminated) output line
after emitting a list of chunks, starting from a current width `cur`;
a `['\n']` chunk ends a line and resets the width, every other chunk extends
the current line by its byte length. -/
def chunkScan : List (List Char) → Nat → Nat
  | [], cur => cur
  | c :: cs, cur =>
    if c = ['\n'] then chunkScan cs 0 else chunkScan cs (cur + utf8Len c)

/-- Decidable statement that every output line *completed* by the chunk list
(starting from current width `cur`) stays within `CHARS_PER_LINE` bytes. -/
def chunkOK : List (List Char) → Nat → Bool
  | [], _ => true
  | c :: cs, cur =>
    if c = ['\n'] then decide (cur ≤ CHARS_PER_LINE) && chunkOK cs 0
    else chunkOK cs (cur + utf8Len c)

/-! ### Generic lemmas about the text primitives -/

theorem utf8Len_append (a b : List Char) : utf8Len (a ++ b) = utf8Len a + utf8Len b := by
  simp [utf8Len]

theorem length_le_utf8Len (l : List Char) : l.length ≤ utf8Len l := by
  induction l with
  | nil => simp [utf8Len]
  | cons c cs ih =>
    have h := Char.utf8Size_pos c
    simp only [utf8Len, List.map_cons, List.sum_cons, List.length_cons]
    simp only [utf8Len] at ih
    omega

theorem splitNl_no_nl (p : List Char) (h : '\n' ∉ p) : splitNl p = [p] := by
  induction p with
  | nil => rfl
  | cons c cs ih =>
    have hc : ¬ (c = '\n') := fun e => h (by simp [e])
    have hcs : '\n' ∉ cs := fun m => h (List.mem_cons_of_mem _ m)
    simp [splitNl, hc, ih hcs]

theorem splitNl_append_nl (p r : List Char) (h : '\n' ∉ p) :
    splitNl (p ++ '\n' :: r) = p :: splitNl r := by
  induction p with
  | nil => simp [splitNl]
  | cons c cs ih =>
    have hc : ¬ (c = '\n') := fun e => h (by simp [e])
    have hcs : '\n' ∉ cs := fun m => h (List.mem_cons_of_mem _ m)
    simp [splitNl, hc, ih hcs]

theorem chunkScan_append (a b : List (List Char)) (cur : Nat) :
    chunkScan (a ++ b) cur = chunkScan b (chunkScan a cur) := by
  induction a generalizing cur with
  | nil => rfl
  | cons c cs ih =>
    by_cases h : c = ['\n'] <;> simp [chunkScan, h, ih]

theorem chunkOK_append (a b : List (List Char)) (cur : Nat) :
    chunkOK (a ++ b) cur = (chunkOK a cur && chunkOK b (chunkScan a cur)) := by
  induction a generalizing cur with
  | nil => rfl
  | cons c cs ih =>
    by_cases h : c = ['\n'] <;> simp [chunkOK, chunkScan, h, ih, Bool.and_assoc]

theorem splitWsCore_no_ws (l : List Char) :
    (∀ c ∈ (splitWsCore l).1, isWs c = false) ∧
      (∀ t ∈ (splitWsCore l).2, t ≠ [] ∧ ∀ c ∈ t, isWs c = false) := by
  induction l with
  | nil => exact ⟨by simp [splitWsCore], by simp [splitWsCore]⟩
  | cons c cs ih =>
    by_cases hws : isWs c
    · refine ⟨by simp [splitWsCore, hws], ?_⟩
      simp only [splitWsCore, hws, if_true]
      by_cases h1 : (splitWsCore cs).1 = []
      · simpa [h1] using ih.2
      · intro t ht
        simp only [h1, if_false] at ht
        rcases List.mem_cons.mp ht with h | h
        · exact ⟨h ▸ h1, h ▸ ih.1⟩
        · exact ih.2 t h
    · refine ⟨?_, by simpa [splitWsCore, hws] using ih.2⟩
      intro d hd
      simp only [splitWsCore, hws, if_false] at hd
      rcases List.mem_cons.mp hd with h | h
      · simpa [h] using hws
      · exact ih.1 d h

theorem splitAsciiWs_tokens (l : List Char) :
    ∀ t ∈ splitAsciiWs l, t ≠ [] ∧ ∀ c ∈ t, isWs c = false := by
  have h := splitWsCore_no_ws l
  intro t ht
  unfold splitAsciiWs at ht
  by_cases h1 : (splitWsCore l).1 = []
  · exact h.2 t (by simpa [h1] using ht)
  · simp only [h1, if_false] at ht
    rcases List.mem_cons.mp ht with hh | hh
    · exact ⟨hh ▸ h1, hh ▸ h.1⟩
    · exact h.2 t hh

theorem no_nl_of_no_ws (t : List Char) (h : ∀ c ∈ t, isWs c = false) : '\n' ∉ t := by
  intro m
  have := h '\n' m
  simp [isWs] at this

/-! ### Width invariant of the wrapped-mode emitter -/

theorem wrapTokens_ok (ts : List (List Char)) (cw ec : Nat)
    (hcw : cw ≤ CHARS_PER_LINE) (hec : ec ≤ 1)
    (hts : ∀ t ∈ ts, '\n' ∉ t) :
    chunkOK (wrapTokens ts cw ec).1 cw = true ∧
      chunkScan (wrapTokens ts cw ec).1 cw ≤ CHARS_PER_LINE := by
  induction ts generalizing cw ec with
  | nil => exact ⟨rfl, hcw⟩
  | cons t ts ih =>
    have htn : '\n' ∉ t := hts t (List.mem_cons_self t ts)
    have hts2 : ∀ u ∈ ts, '\n' ∉ u := fun u hu => hts u (List.mem_cons_of_mem _ hu)
    have htne : ¬ (t = ['\n']) := fun e => htn (by simp [e])
    by_cases hbig : utf8Len t > CHARS_PER_LINE
    · simp only [wrapTokens, if_pos hbig]
      exact ⟨rfl, hcw⟩
    · have hfit : utf8Len t ≤ CHARS_PER_LINE := Nat.le_of_not_lt hbig
      by_cases hbrk : cw + utf8Len t + ec > CHARS_PER_LINE
      · have h1 := ih (utf8Len t) 1 hfit (Nat.le_refl 1) hts2
        simp only [wrapTokens, if_neg hbig, if_pos hbrk]
        constructor
        · simp only [chunkOK, reduceIte, if_neg htne, decide_eq_true_eq, Nat.zero_add]
          exact (Bool.and_eq_true _ _).mpr ⟨by simpa using hcw, h1.1⟩
        · simpa only [chunkScan, reduceIte, if_neg htne, Nat.zero_add] using h1.2
      · have hnew : cw + ec + utf8Len t ≤ CHARS_PER_LINE := by omega
        have h1 := ih (cw + ec + utf8Len t) 1 hnew (Nat.le_refl 1) hts2
        by_cases hec1 : ec = 1
        · subst hec1
          have hsp : ¬ (([' '] : List Char) = ['\n']) := by decide
          have hsplen : utf8Len [' '] = 1 := rfl
          simp only [wrapTokens, if_neg hbig, if_neg hbrk, reduceIte,
            List.cons_append, List.nil_append]
          have harith : cw + utf8Len [' '] + utf8Len t = cw + 1 + utf8Len t := by
            rw [hsplen]
          constructor
          · simpa only [chunkOK, if_neg hsp, if_neg htne, harith] using h1.1
          · simpa only [chunkScan, if_neg hsp, if_neg htne, harith] using h1.2
        · have hec0 : ec = 0 := by omega
          subst hec0
          simp only [wrapTokens, if_neg hbig, if_neg hbrk,
            if_neg (by decide : ¬ ((0:Nat) = 1)), List.nil_append]
          constructor
          · simpa only [chunkOK, if_neg htne, Nat.add_zero] using h1.1
          · simpa only [chunkScan, if_neg htne, Nat.add_zero] using h1.2

theorem wrapLines_ok (ls : List (List Char)) :
    chunkOK (wrapLines ls).1 0 = true ∧
      chunkScan (wrapLines ls).1 0 ≤ CHARS_PER_LINE := by
  induction ls with
  | nil => exact ⟨rfl, by decide⟩
  | cons l ls ih =>
    have htoks : ∀ t ∈ splitAsciiWs l, '\n' ∉ t := fun t ht =>
      no_nl_of_no_ws t (splitAsciiWs_tokens l t ht).2
    have hW := wrapTokens_ok (splitAsciiWs l) 0 0 (by decide) (by decide) htoks
    cases hr : (wrapTokens (splitAsciiWs l) 0 0).2 with
    | none =>
      simp only [wrapLines, hr]
      exact hW
    | some fin =>
      simp only [wrapLines, hr]
      rw [chunkOK_append, chunkScan_append]
      constructor
      · refine (Bool.and_eq_true _ _).mpr ⟨hW.1, ?_⟩
        simp only [chunkOK, reduceIte, decide_eq_true_eq]
        exact (Bool.and_eq_true _ _).mpr ⟨by simpa using hW.2, ih.1⟩
      · simpa only [chunkScan, reduceIte] using ih.2

/-! ### Shape of the emitted chunks -/

theorem wrapTokens_shape (ts : List (List Char)) (cw ec : Nat) :
    ∀ c ∈ (wrapTokens ts cw ec).1,
      c = ['\n'] ∨ c = [' '] ∨ (c ∈ ts ∧ utf8Len c ≤ CHARS_PER_LINE) := by
  induction ts generalizing cw ec with
  | nil => simp [wrapTokens]
  | cons t ts ih =>
    intro c hc
    by_cases hbig : utf8Len t > CHARS_PER_LINE
    · simp only [wrapTokens, if_pos hbig] at hc
      exact absurd hc (List.not_mem_nil c)
    · have hfit : utf8Len t ≤ CHARS_PER_LINE := Nat.le_of_not_lt hbig
      by_cases hbrk : cw + utf8Len t + ec > CHARS_PER_LINE
      · simp only [wrapTokens, if_neg hbig, if_pos hbrk, List.mem_cons] at hc
        rcases hc with h | h | h
        · exact Or.inl h
        · exact Or.inr (Or.inr ⟨h ▸ List.mem_cons_self t ts, h ▸ hfit⟩)
        · rcases ih (utf8Len t) 1 c h with h1 | h1 | h1
          · exact Or.inl h1
          · exact Or.inr (Or.inl h1)
          · exact Or.inr (Or.inr ⟨List.mem_cons_of_mem _ h1.1, h1.2⟩)
      · by_cases hec1 : ec = 1
        · subst hec1
          simp only [wrapTokens, if_neg hbig, if_neg hbrk, reduceIte,
            List.cons_append, List.nil_append, List.mem_cons] at hc
          rcases hc with h | h | h
          · exact Or.inr (Or.inl h)
          · exact Or.inr (Or.inr ⟨h ▸ List.mem_cons_self t ts, h ▸ hfit⟩)
          · rcases ih (cw + 1 + utf8Len t) 1 c h with h1 | h1 | h1
            · exact Or.inl h1
            · exact Or.inr (Or.inl h1)
            · exact Or.inr (Or.inr ⟨List.mem_cons_of_mem _ h1.1, h1.2⟩)
        · simp only [wrapTokens, if_neg hbig, if_neg hbrk, if_neg hec1,
            List.nil_append, List.mem_cons] at hc
          rcases hc with h | h
          · exact Or.inr (Or.inr ⟨h ▸ List.mem_cons_self t ts, h ▸ hfit⟩)
          · rcases ih (cw + ec + utf8Len t) 1 c h with h1 | h1 | h1
            · exact Or.inl h1
            · exact Or.inr (Or.inl h1)
            · exact Or.inr (Or.inr ⟨List.mem_cons_of_mem _ h1.1, h1.2⟩)

theorem wrapLines_shape (ls : List (List Char)) :
    ∀ c ∈ (wrapLines ls).1,
      c = ['\n'] ∨ c = [' '] ∨
        ∃ l ∈ ls, c ∈ splitAsciiWs l ∧ utf8Len c ≤ CHARS_PER_LINE := by
  induction ls with
  | nil => simp [wrapLines]
  | cons l ls ih =>
    intro c hc
    cases hr : (wrapTokens (splitAsciiWs l) 0 0).2 with
    | none =>
      simp only [wrapLines, hr] at hc
      rcases wrapTokens_shape _ 0 0 c hc with h | h | h
      · exact Or.inl h
      · exact Or.inr (Or.inl h)
      · exact Or.inr (Or.inr ⟨l, List.mem_cons_self l ls, h⟩)
    | some fin =>
      simp only [wrapLines, hr, List.mem_append, List.mem_cons] at hc
      rcases hc with h | h | h
      · rcases wrapTokens_shape _ 0 0 c h with h1 | h1 | h1
        · exact Or.inl h1
        · exact Or.inr (Or.inl h1)
        · exact Or.inr (Or.inr ⟨l, List.mem_cons_self l ls, h1⟩)
      · exact Or.inl h
      · rcases ih c h with h1 | h1 | h1
        · exact Or.inl h1
        · exact Or.inr (Or.inl h1)
        · rcases h1 with ⟨l2, hl2, hm⟩
          exact Or.inr (Or.inr ⟨l2, List.mem_cons_of_mem _ hl2, hm⟩)

/-! ### From chunk-level invariants to output-line lengths -/

theorem splitNl_flatten_bound (cs : List (List Char)) :
    ∀ (pre : List Char), (∀ c ∈ cs, c = ['\n'] ∨ '\n' ∉ c) → '\n' ∉ pre →
      chunkOK cs (utf8Len pre) = true → chunkScan cs (utf8Len pre) ≤ CHARS_PER_LINE →
      ∀ l ∈ splitNl (pre ++ cs.flatten), utf8Len l ≤ CHARS_PER_LINE := by
  induction cs with
  | nil =>
    intro pre _ hpre _ hscan l hl
    rw [List.flatten_nil, List.append_nil, splitNl_no_nl pre hpre] at hl
    rcases List.mem_singleton.mp hl with rfl
    exact hscan
  | cons c cs ih =>
    intro pre hsh hpre hok hscan l hl
    rcases hsh c (List.mem_cons_self c cs) with rfl | hfree
    · rw [List.flatten_cons, ← List.append_assoc] at hl
      rw [show (pre ++ ['\n']) ++ cs.flatten = pre ++ '\n' :: cs.flatten by simp,
        splitNl_append_nl pre _ hpre] at hl
      simp only [chunkOK, if_pos rfl, Bool.and_eq_true, decide_eq_true_eq,
        reduceIte] at hok
      simp only [chunkScan, reduceIte] at hscan
      rcases List.mem_cons.mp hl with rfl | hl2
      · exact hok.1
      · have := ih [] (fun d hd => hsh d (List.mem_cons_of_mem _ hd)) (by simp)
          (by simpa [utf8Len] using hok.2) (by simpa [utf8Len] using hscan)
        exact this l (by simpa using hl2)
    · have hne : ¬ (c = ['\n']) := fun e => hfree (by simp [e])
      rw [List.flatten_cons, ← List.append_assoc] at hl
      simp only [chunkOK, if_neg hne] at hok
      simp only [chunkScan, if_neg hne] at hscan
      have hpre2 : '\n' ∉ pre ++ c := by
        intro m
        rcases List.mem_append.mp m with m | m
        · exact hpre m
        · exact hfree m
      have := ih (pre ++ c) (fun d hd => hsh d (List.mem_cons_of_mem _ hd)) hpre2
        (by rwa [utf8Len_append]) (by rwa [utf8Len_append])
      exact this l hl

/-- Claim C1: in wrapped mode (`raw=false`), for every valid-UTF-8 request
body, every output line emitted between consecutive newline chunks contains
at most `CHARS_PER_LINE` (48) characters, counting the single-space
separators emitted between tokens on the same line.  (The code bounds the
byte length of each output line by 48, which bounds the character count.) -/
theorem print_wrapped_lines_within_width (s : List Char) :
    ((splitNl ((printRun (some s) false).1.flatten)).all
      (fun l => decide (l.length ≤ CHARS_PER_LINE))) = true := by
  rw [List.all_eq_true]
  intro l hl
  rw [decide_eq_true_eq]
  have hrun : (printRun (some s) false).1 = (wrapLines (rustLines s)).1 := rfl
  rw [hrun] at hl
  have hshape : ∀ c ∈ (wrapLines (rustLines s)).1, c = ['\n'] ∨ '\n' ∉ c := by
    intro c hc
    rcases wrapLines_shape _ c hc with h | h | h
    · exact Or.inl h
    · exact Or.inr (by simp [h])
    · rcases h with ⟨l2, _, hm, _⟩
      exact Or.inr (no_nl_of_no_ws c (splitAsciiWs_tokens l2 c hm).2)
  have hOK := wrapLines_ok (rustLines s)
  have hbound := splitNl_flatten_bound (wrapLines (rustLines s)).1 [] hshape (by simp)
    (by simpa [utf8Len] using hOK.1) (by simpa [utf8Len] using hOK.2)
  exact Nat.le_trans (length_le_utf8Len l) (hbound l (by simpa using hl))

/-! ### Token algebra of `split_ascii_whitespace` -/

theorem splitAsciiWs_nil : splitAsciiWs [] = [] := rfl

theorem splitWsCore_append_ws (a b : List Char) (w : Char) (hw : isWs w = true) :
    splitWsCore (a ++ w :: b) = ((splitWsCore a).1, (splitWsCore a).2 ++ splitAsciiWs b) := by
  induction a with
  | nil =>
    show splitWsCore (w :: b) = _
    simp only [splitWsCore, hw, if_true]
    simp [splitAsciiWs]
  | cons c a ih =>
    show splitWsCore (c :: (a ++ w :: b)) = _
    simp only [splitWsCore]
    rw [ih]
    by_cases hc : isWs c
    · simp only [hc, if_true]
      by_cases h1 : (splitWsCore a).1 = [] <;> simp [h1]
    · simp only [Bool.not_eq_true] at hc
      simp [hc]

theorem splitAsciiWs_append_ws (a b : List Char) (w : Char) (hw : isWs w = true) :
    splitAsciiWs (a ++ w :: b) = splitAsciiWs a ++ splitAsciiWs b := by
  simp only [splitAsciiWs, splitWsCore_append_ws a b w hw]
  by_cases h1 : (splitWsCore a).1 = [] <;> simp [h1]

theorem splitAsciiWs_ws_cons (b : List Char) (w : Char) (hw : isWs w = true) :
    splitAsciiWs (w :: b) = splitAsciiWs b := by
  simpa [splitAsciiWs_nil] using splitAsciiWs_append_ws [] b w hw

theorem splitWsCore_token (t : List Char) (h : ∀ c ∈ t, isWs c = false) :
    splitWsCore t = (t, []) := by
  induction t with
  | nil => rfl
  | cons c cs ih =>
    have hc : isWs c = false := h c (List.mem_cons_self c cs)
    simp [splitWsCore, hc, ih (fun d hd => h d (List.mem_cons_of_mem _ hd))]

theorem splitAsciiWs_token (t : List Char) (hne : t ≠ []) (h : ∀ c ∈ t, isWs c = false) :
    splitAsciiWs t = [t] := by
  simp [splitAsciiWs, splitWsCore_token t h, hne]

theorem splitAsciiWs_stripTrailCr (l : List Char) :
    splitAsciiWs (stripTrailCr l) = splitAsciiWs l := by
  unfold stripTrailCr
  by_cases h : l.getLast? = some '\r'
  · rw [if_pos h]
    have hne : l ≠ [] := by intro e; rw [e] at h; simp at h
    have hlast : l.getLast hne = '\r' := by
      rw [List.getLast?_eq_getLast l hne] at h
      exact Option.some_injective _ h
    have hdecomp : l = l.dropLast ++ '\r' :: [] := by
      conv_lhs => rw [← List.dropLast_append_getLast hne, hlast]
    conv_rhs => rw [hdecomp]
    rw [splitAsciiWs_append_ws _ _ '\r' (by decide), splitAsciiWs_nil, List.append_nil]
  · rw [if_neg h]

theorem splitAsciiWs_linesAux (s : List Char) :
    ∀ acc, splitAsciiWs (acc ++ s) = (linesAux s acc).flatMap splitAsciiWs := by
  induction s with
  | nil =>
    intro acc
    by_cases h : acc = []
    · simp [linesAux, h, splitAsciiWs_nil]
    · simp [linesAux, h]
  | cons c cs ih =>
    intro acc
    by_cases hc : c = '\n'
    · subst hc
      rw [splitAsciiWs_append_ws acc cs '\n' (by decide)]
      simp only [linesAux, reduceIte, List.flatMap_cons]
      rw [splitAsciiWs_stripTrailCr]
      have := ih []
      rw [List.nil_append] at this
      rw [this]
    · rw [show acc ++ c :: cs = (acc ++ [c]) ++ cs by simp]
      rw [ih (acc ++ [c])]
      simp [linesAux, hc]

theorem splitAsciiWs_eq_lines_flatMap (s : List Char) :
    splitAsciiWs s = (rustLines s).flatMap splitAsciiWs := by
  simpa using splitAsciiWs_linesAux s []

/-! ### Token preservation of the wrapped-mode emitter -/

theorem wrapTokens_head_ws (t : List Char) (ts : List (List Char)) (cw : Nat)
    (hfit : utf8Len t ≤ CHARS_PER_LINE) :
    ∃ w r, (wrapTokens (t :: ts) cw 1).1.flatten = w :: r ∧ isWs w = true := by
  have hbig : ¬ utf8Len t > CHARS_PER_LINE := Nat.not_lt.mpr hfit
  by_cases hbrk : cw + utf8Len t + 1 > CHARS_PER_LINE
  · exact ⟨'\n', t ++ (wrapTokens ts (utf8Len t) 1).1.flatten,
      by simp [wrapTokens, hbig, hbrk], by decide⟩
  · exact ⟨' ', t ++ (wrapTokens ts (cw + 1 + utf8Len t) 1).1.flatten,
      by simp [wrapTokens, hbig, hbrk], by decide⟩

theorem wrapTokens_tokens (ts : List (List Char)) :
    ∀ (cw ec : Nat) (tail : List Char),
      (∀ t ∈ ts, t ≠ [] ∧ (∀ c ∈ t, isWs c = false) ∧ utf8Len t ≤ CHARS_PER_LINE) →
      splitAsciiWs ((wrapTokens ts cw ec).1.flatten ++ '\n' :: tail) =
        ts ++ splitAsciiWs tail := by
  induction ts with
  | nil =>
    intro cw ec tail _
    simp [wrapTokens, splitAsciiWs_ws_cons tail '\n' (by decide)]
  | cons t ts ih =>
    intro cw ec tail hgood
    obtain ⟨hne, hfree, hfit⟩ := hgood t (List.mem_cons_self t ts)
    have hgood2 : ∀ u ∈ ts, u ≠ [] ∧ (∀ c ∈ u, isWs c = false) ∧ utf8Len u ≤ CHARS_PER_LINE :=
      fun u hu => hgood u (List.mem_cons_of_mem _ hu)
    have hbig : ¬ utf8Len t > CHARS_PER_LINE := Nat.not_lt.mpr hfit
    have key : ∀ cw2 : Nat,
        splitAsciiWs (t ++ ((wrapTokens ts cw2 1).1.flatten ++ '\n' :: tail)) =
          t :: (ts ++ splitAsciiWs tail) := by
      intro cw2
      cases ts with
      | nil =>
        rw [show (wrapTokens ([] : List (List Char)) cw2 1).1.flatten = [] from rfl,
          List.nil_append, splitAsciiWs_append_ws t tail '\n' (by decide),
          splitAsciiWs_token t hne hfree]
        simp
      | cons t2 ts2 =>
        obtain ⟨_, _, hfit2⟩ := hgood2 t2 (List.mem_cons_self t2 ts2)
        obtain ⟨w, r, hw, hws⟩ := wrapTokens_head_ws t2 ts2 cw2 hfit2
        rw [hw, show t ++ ((w :: r) ++ '\n' :: tail) = t ++ w :: (r ++ '\n' :: tail) by simp,
          splitAsciiWs_append_ws t _ w hws, splitAsciiWs_token t hne hfree]
        have hih := ih cw2 1 tail hgood2
        rw [hw, List.cons_append, splitAsciiWs_ws_cons _ w hws] at hih
        simp [hih]
    by_cases hbrk : cw + utf8Len t + ec > CHARS_PER_LINE
    · have hchunks : (wrapTokens (t :: ts) cw ec).1
          = ['\n'] :: t :: (wrapTokens ts (utf8Len t) 1).1 := by
        simp [wrapTokens, hbig, hbrk]
      rw [hchunks, List.flatten_cons, List.flatten_cons]
      rw [show (['\n'] : List Char) ++ (t ++ (wrapTokens ts (utf8Len t) 1).1.flatten)
          = '\n' :: (t ++ (wrapTokens ts (utf8Len t) 1).1.flatten) from rfl]
      rw [List.cons_append, splitAsciiWs_ws_cons _ '\n' (by decide), List.append_assoc]
      rw [key (utf8Len t)]
      simp
    · by_cases hec1 : ec = 1
      · subst hec1
        have hchunks : (wrapTokens (t :: ts) cw 1).1
            = [' '] :: t :: (wrapTokens ts (cw + 1 + utf8Len t) 1).1 := by
          simp [wrapTokens, hbig, hbrk]
        rw [hchunks, List.flatten_cons, List.flatten_cons]
        rw [show ([' '] : List Char) ++ (t ++ (wrapTokens ts (cw + 1 + utf8Len t) 1).1.flatten)
            = ' ' :: (t ++ (wrapTokens ts (cw + 1 + utf8Len t) 1).1.flatten) from rfl]
        rw [List.cons_append, splitAsciiWs_ws_cons _ ' ' (by decide), List.append_assoc]
        rw [key (cw + 1 + utf8Len t)]
        simp
      · have hchunks : (wrapTokens (t :: ts) cw ec).1
            = t :: (wrapTokens ts (cw + ec + utf8Len t) 1).1 := by
          simp [wrapTokens, hbig, hbrk, hec1]
        rw [hchunks, List.flatten_cons, List.append_assoc]
        rw [key (cw + ec + utf8Len t)]
        simp

theorem wrapTokens_none (ts : List (List Char)) :
    ∀ cw ec, (wrapTokens ts cw ec).2 = none →
      ∃ t ∈ ts, utf8Len t > CHARS_PER_LINE := by
  induction ts with
  | nil => intro cw ec h; exact absurd h (by simp [wrapTokens])
  | cons t ts ih =>
    intro cw ec h
    by_cases hbig : utf8Len t > CHARS_PER_LINE
    · exact ⟨t, List.mem_cons_self t ts, hbig⟩
    · by_cases hbrk : cw + utf8Len t + ec > CHARS_PER_LINE
      · simp only [wrapTokens, if_neg hbig, if_pos hbrk] at h
        obtain ⟨u, hu, hbig2⟩ := ih (utf8Len t) 1 h
        exact ⟨u, List.mem_cons_of_mem _ hu, hbig2⟩
      · simp only [wrapTokens, if_neg hbig, if_neg hbrk] at h
        obtain ⟨u, hu, hbig2⟩ := ih (cw + ec + utf8Len t) 1 h
        exact ⟨u, List.mem_cons_of_mem _ hu, hbig2⟩

theorem wrapTokens_some_fit (ts : List (List Char)) :
    ∀ cw ec fin, (wrapTokens ts cw ec).2 = some fin →
      ∀ t ∈ ts, utf8Len t ≤ CHARS_PER_LINE := by
  induction ts with
  | nil => intro _ _ _ _ t ht; exact absurd ht (List.not_mem_nil t)
  | cons t ts ih =>
    intro cw ec fin h u hu
    by_cases hbig : utf8Len t > CHARS_PER_LINE
    · simp [wrapTokens, hbig] at h
    · rcases List.mem_cons.mp hu with rfl | hu2
      · exact Nat.le_of_not_lt hbig
      · by_cases hbrk : cw + utf8Len t + ec > CHARS_PER_LINE
        · simp only [wrapTokens, if_neg hbig, if_pos hbrk] at h
          exact ih (utf8Len t) 1 fin h u hu2
        · simp only [wrapTokens, if_neg hbig, if_neg hbrk] at h
          exact ih (cw + ec + utf8Len t) 1 fin h u hu2

theorem wrapLines_tokens (ls : List (List Char))
    (h : ∀ l ∈ ls, ∀ t ∈ splitAsciiWs l, utf8Len t ≤ CHARS_PER_LINE) :
    (wrapLines ls).2 = true ∧
      splitAsciiWs ((wrapLines ls).1.flatten) = ls.flatMap splitAsciiWs := by
  induction ls with
  | nil => exact ⟨rfl, by simp [wrapLines, splitAsciiWs_nil]⟩
  | cons l ls ih =>
    have hgood : ∀ t ∈ splitAsciiWs l,
        t ≠ [] ∧ (∀ c ∈ t, isWs c = false) ∧ utf8Len t ≤ CHARS_PER_LINE := fun t ht =>
      ⟨(splitAsciiWs_tokens l t ht).1, (splitAsciiWs_tokens l t ht).2,
        h l (List.mem_cons_self l ls) t ht⟩
    have ih2 := ih (fun l2 hl2 => h l2 (List.mem_cons_of_mem _ hl2))
    cases hr : (wrapTokens (splitAsciiWs l) 0 0).2 with
    | none =>
      obtain ⟨t, ht, hbig⟩ := wrapTokens_none _ 0 0 hr
      exact absurd (h l (List.mem_cons_self l ls) t ht) (Nat.not_le.mpr hbig)
    | some fin =>
      refine ⟨by simp only [wrapLines, hr]; exact ih2.1, ?_⟩
      simp only [wrapLines, hr, List.flatten_append, List.flatten_cons, List.flatMap_cons]
      rw [show (['\n'] : List Char) ++ (wrapLines ls).1.flatten
          = '\n' :: (wrapLines ls).1.flatten by simp]
      rw [wrapTokens_tokens (splitAsciiWs l) 0 0 _ hgood, ih2.2]

theorem wrapLines_false_iff (ls : List (List Char)) :
    (wrapLines ls).2 = false ↔
      ∃ l ∈ ls, ∃ t ∈ splitAsciiWs l, utf8Len t > CHARS_PER_LINE := by
  induction ls with
  | nil => simp [wrapLines]
  | cons l ls ih =>
    cases hr : (wrapTokens (splitAsciiWs l) 0 0).2 with
    | none =>
      simp only [wrapLines, hr]
      constructor
      · intro _
        obtain ⟨t, ht, hbig⟩ := wrapTokens_none _ 0 0 hr
        exact ⟨l, List.mem_cons_self l ls, t, ht, hbig⟩
      · intro _; trivial
    | some fin =>
      simp only [wrapLines, hr]
      rw [ih]
      constructor
      · rintro ⟨l2, hl2, t, ht, hbig⟩
        exact ⟨l2, List.mem_cons_of_mem _ hl2, t, ht, hbig⟩
      · rintro ⟨l2, hl2, t, ht, hbig⟩
        rcases List.mem_cons.mp hl2 with rfl | hl3
        · exact absurd (wrapTokens_some_fit _ 0 0 fin hr t ht) (Nat.not_le.mpr hbig)
        · exact ⟨l2, hl3, t, ht, hbig⟩

theorem tokensFit_false_iff (s : List Char) :
    tokensFit s = false ↔ ∃ t ∈ splitAsciiWs s, utf8Len t > CHARS_PER_LINE := by
  rw [show tokensFit s = false ↔ ¬ (tokensFit s = true) by simp]
  rw [tokensFit, List.all_eq_true]
  constructor
  · intro h
    rcases not_forall.mp h with ⟨t, ht⟩
    rcases Classical.not_imp.mp ht with ⟨hmem, hno⟩
    exact ⟨t, hmem, by simpa using hno⟩
  · rintro ⟨t, hmem, hbig⟩ h
    have := h t hmem
    simp only [decide_eq_true_eq] at this
    omega

/-- Claim C2: for every valid-UTF-8 request body in which no
whitespace-delimited token exceeds 48 bytes, the wrapped-mode print path
preserves the token sequence: splitting the concatenation of all emitted
chunks on ASCII whitespace yields exactly the same ordered list of tokens
as splitting the input on ASCII whitespace. -/
theorem print_wrapped_preserves_tokens (s : List Char) (h : tokensFit s = true) :
    splitAsciiWs ((printRun (some s) false).1.flatten) = splitAsciiWs s := by
  have hfit : ∀ t ∈ splitAsciiWs s, utf8Len t ≤ CHARS_PER_LINE := by
    rw [tokensFit, List.all_eq_true] at h
    intro t ht
    simpa using h t ht
  have hlines : ∀ l ∈ rustLines s, ∀ t ∈ splitAsciiWs l, utf8Len t ≤ CHARS_PER_LINE := by
    intro l hl t ht
    apply hfit
    rw [splitAsciiWs_eq_lines_flatMap s]
    exact List.mem_flatMap.mpr ⟨l, hl, ht⟩
  have hW := wrapLines_tokens (rustLines s) hlines
  rw [show (printRun (some s) false).1 = (wrapLines (rustLines s)).1 from rfl,
    hW.2, ← splitAsciiWs_eq_lines_flatMap]

/-- Witness for C2 at a concrete body. -/
theorem print_wrapped_preserves_tokens_witness :
    splitAsciiWs ((printRun (some "hello world, this is  a wrap test".toList) false).1.flatten)
      = splitAsciiWs "hello world, this is  a wrap test".toList :=
  print_wrapped_preserves_tokens _ (by decide)

theorem printRun_wrapped_status (s : List Char) :
    (printRun (some s) false).2 = some Status.unprocessableEntity ↔
      tokensFit s = false := by
  have hcond : tokensFit s = false ↔ (wrapLines (rustLines s)).2 = false := by
    rw [tokensFit_false_iff, wrapLines_false_iff]
    constructor
    · rintro ⟨t, ht, hbig⟩
      rw [splitAsciiWs_eq_lines_flatMap s] at ht
      obtain ⟨l, hl, ht2⟩ := List.mem_flatMap.mp ht
      exact ⟨l, hl, t, ht2, hbig⟩
    · rintro ⟨l, hl, t, ht, hbig⟩
      refine ⟨t, ?_, hbig⟩
      rw [splitAsciiWs_eq_lines_flatMap s]
      exact List.mem_flatMap.mpr ⟨l, hl, ht⟩
  rw [hcond]
  cases hb : (wrapLines (rustLines s)).2 with
  | false => simp [printRun, hb]
  | true => simp [printRun, hb]

/-- Claim C3: the print endpoint in wrapped mode fails with
UNPROCESSABLE_ENTITY exactly when the body is not valid UTF-8 (the `none`
body, first conjunct) or some ASCII-whitespace-delimited token of the body
is longer than `CHARS_PER_LINE` (48) bytes (second conjunct); an oversized
token is rejected, never truncated or split. -/
theorem print_wrapped_error_iff (s : List Char) :
    (printRun none false).2 = some Status.unprocessableEntity ∧
      ((printRun (some s) false).2 = some Status.unprocessableEntity ↔
        tokensFit s = false) :=
  ⟨rfl, printRun_wrapped_status s⟩

/-! ### Partial output on the oversized-token error path (C4) -/

theorem printRun_chunk_shape (s : List Char) :
    ∀ c ∈ (printRun (some s) false).1, c = ['\n'] ∨ c = [' '] ∨
      (c ∈ splitAsciiWs s ∧ utf8Len c ≤ CHARS_PER_LINE) := by
  intro c hc
  have hc2 : c ∈ (wrapLines (rustLines s)).1 := hc
  rcases wrapLines_shape _ c hc2 with h | h | h
  · exact Or.inl h
  · exact Or.inr (Or.inl h)
  · rcases h with ⟨l, hl, hm, hfit⟩
    refine Or.inr (Or.inr ⟨?_, hfit⟩)
    rw [splitAsciiWs_eq_lines_flatMap s]
    exact List.mem_flatMap.mpr ⟨l, hl, hm⟩

/-- Counterexample to C4 as stated: on the body `"a "` followed by 49 `b`s,
the request fails with the oversized-token validation error, yet the chunk
`"a"` for the preceding token has already been emitted to the output sink —
the output is partially flushed, contradicting "the request emits no chunks
to the output sink before returning the validation error". -/
theorem print_error_partial_output_cex :
    (printRun (some ("a ".toList ++ List.replicate 49 'b')) false).2
        = some Status.unprocessableEntity ∧
      (printRun (some ("a ".toList ++ List.replicate 49 'b')) false).1 = [['a']] ∧
      ([['a']] : List (List Char)) ≠ [] := by
  decide

/-- Claim C4 (amended): when a print request fails with the oversized-token
validation error, chunks already emitted for tokens preceding the oversized
token remain emitted (output may be partially flushed); however, nothing of
the oversized token itself is ever emitted: every emitted chunk is a newline
chunk, a single-space separator, or a complete input token of at most 48
bytes. -/
theorem print_error_chunks_are_whole_tokens (s : List Char)
    (h : tokensFit s = false) :
    (printRun (some s) false).2 = some Status.unprocessableEntity ∧
      ((printRun (some s) false).1.all
        (fun c => decide (c = ['\n']) || decide (c = [' ']) ||
          (decide (c ∈ splitAsciiWs s) && decide (utf8Len c ≤ CHARS_PER_LINE)))) = true := by
  refine ⟨(printRun_wrapped_status s).mpr h, ?_⟩
  rw [List.all_eq_true]
  intro c hc
  rcases printRun_chunk_shape s c hc with h1 | h1 | h1 <;>
    simp [h1]

/-- Witness for the amended C4 at a concrete failing body. -/
theorem print_error_chunks_are_whole_tokens_witness :
    (printRun (some ("ok ".toList ++ List.replicate 50 'x')) false).2
        = some Status.unprocessableEntity ∧
      ((printRun (some ("ok ".toList ++ List.replicate 50 'x')) false).1.all
        (fun c => decide (c = ['\n']) || decide (c = [' ']) ||
          (decide (c ∈ splitAsciiWs ("ok ".toList ++ List.replicate 50 'x')) &&
            decide (utf8Len c ≤ CHARS_PER_LINE)))) = true :=
  print_error_chunks_are_whole_tokens _ (by decide)

/-! ### Raw-mode output (C5) -/

theorem stripTrailCr_eq_self (l : List Char) (h : '\r' ∉ l) : stripTrailCr l = l := by
  unfold stripTrailCr
  rw [if_neg]
  intro e
  obtain ⟨hne, heq⟩ := List.mem_getLast?_eq_getLast (show '\r' ∈ l.getLast? from e)
  exact h (heq ▸ List.getLast_mem hne)

theorem getLast?_append_cons (a : List Char) (x : Char) (b : List Char) :
    (a ++ x :: b).getLast? = (x :: b).getLast? := by
  rw [List.getLast?_append]
  cases hq : (x :: b).getLast? with
  | none =>
    rw [List.getLast?_eq_none_iff] at hq
    exact absurd hq (List.cons_ne_nil x b)
  | some v => rfl

theorem flatMap_pair_flatten (ls : List (List Char)) :
    ((ls.flatMap (fun l => [l, ['\n']])).flatten) = ls.flatMap (fun l => l ++ ['\n']) := by
  induction ls with
  | nil => rfl
  | cons l ls ih => simp [ih]

theorem linesAux_raw_join (s : List Char) :
    ∀ acc, '\r' ∉ s → '\r' ∉ acc → '\n' ∉ acc →
      (linesAux s acc).flatMap (fun l => l ++ ['\n']) =
        (if acc ++ s = [] then []
         else if (acc ++ s).getLast? = some '\n' then acc ++ s else (acc ++ s) ++ ['\n']) := by
  induction s with
  | nil =>
    intro acc _ _ hna
    by_cases h : acc = []
    · simp [linesAux, h]
    · have hlast : ¬ (acc.getLast? = some '\n') := by
        intro e
        obtain ⟨hne, heq⟩ := List.mem_getLast?_eq_getLast (show '\n' ∈ acc.getLast? from e)
        exact hna (heq ▸ List.getLast_mem hne)
      simp [linesAux, h, hlast]
  | cons c cs ih =>
    intro acc hrs hra hna
    have hrcs : '\r' ∉ cs := fun m => hrs (List.mem_cons_of_mem _ m)
    by_cases hc : c = '\n'
    · subst hc
      simp only [linesAux, reduceIte, List.flatMap_cons]
      rw [stripTrailCr_eq_self acc hra]
      have hih := ih [] hrcs (by simp) (by simp)
      rw [List.nil_append] at hih
      rw [hih]
      by_cases hcs : cs = []
      · subst hcs
        have hne2 : ¬ ((acc ++ '\n' :: ([] : List Char)) = []) := by simp
        have hl : (acc ++ '\n' :: ([] : List Char)).getLast? = some '\n' :=
          List.getLast?_concat acc
        rw [if_neg hne2, if_pos hl]
        simp
      · obtain ⟨d, ds, rfl⟩ : ∃ d ds, cs = d :: ds := by
          cases cs with
          | nil => exact absurd rfl hcs
          | cons d ds => exact ⟨d, ds, rfl⟩
        have hne1 : ¬ ((d :: ds : List Char) = []) := List.cons_ne_nil d ds
        have hne2 : ¬ ((acc ++ '\n' :: d :: ds : List Char) = []) := by simp
        have hl : (acc ++ '\n' :: d :: ds).getLast? = (d :: ds).getLast? := by
          rw [getLast?_append_cons, List.getLast?_cons_cons]
        rw [if_neg hne1, if_neg hne2, hl]
        by_cases h2 : (d :: ds).getLast? = some '\n'
        · rw [if_pos h2, if_pos h2]
          simp
        · rw [if_neg h2, if_neg h2]
          simp
    · have hcr : ¬ (c = '\r') := fun e => hrs (by simp [e])
      simp only [linesAux, hc, if_false, if_neg hc]
      have hram : '\r' ∉ acc ++ [c] := by
        intro m
        rcases List.mem_append.mp m with m | m
        · exact hra m
        · exact hcr (List.mem_singleton.mp m).symm
      have hnam : '\n' ∉ acc ++ [c] := by
        intro m
        rcases List.mem_append.mp m with m | m
        · exact hna m
        · exact hc (List.mem_singleton.mp m).symm
      have hih := ih (acc ++ [c]) hrcs hram hnam
      rw [show (acc ++ [c]) ++ cs = acc ++ c :: cs by simp] at hih
      exact hih

/-- Counterexample to C5 as stated: raw-mode output is not byte-identical to
the input up to trailing-newline normalization.  The body `"\r\n"` (which
already ends in a newline) is emitted as `"\n"`: Rust `str::lines` strips
the carriage return of a `\r\n` terminator.  And the empty body emits
nothing at all, so no trailing newline is added to it. -/
theorem raw_mode_not_byte_identical_cex :
    (printRun (some ['\r', '\n']) true).1.flatten = ['\n'] ∧
      (['\n'] : List Char) ≠ ['\r', '\n'] ∧
      (printRun (some ([] : List Char)) true).1.flatten = [] ∧
      (([] : List Char)) ≠ ['\n'] := by
  decide

/-- Claim C5 (amended): for every valid-UTF-8 body containing no carriage
return, the concatenation of the chunks emitted in raw mode is the input
followed by a trailing newline when the non-empty input does not already
end in one; the empty body emits nothing.  (For bodies with `\r\n` line
terminators the `\r` is additionally stripped, as the counterexample
shows.) -/
theorem raw_mode_output_normalized (s : List Char) (h : '\r' ∉ s) :
    (printRun (some s) true).1.flatten =
      (if s = [] then []
       else if s.getLast? = some '\n' then s else s ++ ['\n']) := by
  rw [show (printRun (some s) true).1 = rawChunks s from rfl]
  rw [rawChunks, flatMap_pair_flatten]
  have := linesAux_raw_join s [] h (by simp) (by simp)
  rw [List.nil_append] at this
  exact this

/-- Witness for the amended C5 at a concrete body. -/
theorem raw_mode_output_normalized_witness :
    (printRun (some "ab\ncd".toList) true).1.flatten =
      (if "ab\ncd".toList = [] then []
       else if "ab\ncd".toList.getLast? = some '\n' then "ab\ncd".toList
       else "ab\ncd".toList ++ ['\n']) :=
  raw_mode_output_normalized _ (by decide)

/-! ### Empty body in wrapped mode (C6) -/

/-- Counterexample to C6 as stated: on the empty request body, wrapped mode
emits no chunk at all — `str::lines` of the empty string yields no lines, so
the per-line loop body never runs and no newline chunk is written — rather
than the claimed single blank output line (one newline chunk). -/
theorem empty_body_no_blank_line_cex :
    (printRun (some ([] : List Char)) false).1 = [] ∧
      ([] : List (List Char)) ≠ [['\n']] := by
  decide

/-- Claim C6 (amended): given an empty request body, the wrapped-mode print
path emits zero chunks between the framing actions (no blank line), and on
the fallback path both the opening and the closing 48-character separator
lines are still printed, with nothing in between. -/
theorem empty_body_console_output :
    printConsole (some ([] : List Char)) false
      = (sepLine ++ '\n' :: (sepLine ++ ['\n']), none) := by
  decide

/-! ### Moon phase at the reference dates (C7) -/

theorem SYNODIC_pos : (0 : ℚ) < SYNODIC := by norm_num [SYNODIC]

theorem phaseQ_small (n : Int) (h0 : 0 ≤ (n : ℚ)) (h29 : (n : ℚ) < SYNODIC) :
    phaseQ n = (n : ℚ) := by
  have hpos := SYNODIC_pos
  have hfl : ⌊(n : ℚ) / SYNODIC⌋ = 0 := by
    rw [Int.floor_eq_zero_iff]
    exact ⟨div_nonneg h0 hpos.le, (div_lt_one hpos).mpr h29⟩
  have hnn : 0 ≤ (n : ℚ) / SYNODIC := div_nonneg h0 hpos.le
  have hq1 : qtrunc ((n : ℚ) / SYNODIC) = 0 := by
    rw [qtrunc, if_pos hnn]
    exact hfl
  have heq : ((n : ℚ) + SYNODIC) / SYNODIC = (n : ℚ) / SYNODIC + 1 := by
    rw [add_div, div_self hpos.ne.symm]
  have hq2 : qtrunc (((n : ℚ) + SYNODIC) / SYNODIC) = 1 := by
    rw [qtrunc, if_pos (div_nonneg (add_nonneg h0 hpos.le) hpos.le), heq,
      Int.floor_add_one, hfl]
    norm_num
  have e1 : qfmod (n : ℚ) SYNODIC = (n : ℚ) := by
    rw [qfmod, hq1]
    push_cast
    ring
  have e2 : qfmod ((n : ℚ) + SYNODIC) SYNODIC = (n : ℚ) := by
    rw [qfmod, hq2]
    push_cast
    ring
  rw [phaseQ, e1, e2]

theorem f64ToU8_ofNat (n : Nat) (h : n ≤ 255) : f64ToU8 (n : ℚ) = n := by
  rw [f64ToU8, if_neg (not_lt.mpr (Nat.cast_nonneg n)), qtrunc,
    if_pos (Nat.cast_nonneg n), Int.floor_natCast, Int.toNat_natCast]
  exact min_eq_right h

/-- Claim C7: `moon_phase` maps the reference new moon date `2000-01-06` to
the phase named "New Moon", and each of the dates 14, 15 and 16 days later
(`2000-01-20`, `2000-01-21`, `2000-01-22`) to "Full Moon". -/
theorem moon_phase_reference_dates :
    moon_phase "2000-01-06" = ("@", "New Moon") ∧
      moon_phase "2000-01-20" = ("O", "Full Moon") ∧
      moon_phase "2000-01-21" = ("O", "Full Moon") ∧
      moon_phase "2000-01-22" = ("O", "Full Moon") := by
  have hph0 : phaseQ 0 = 0 := by
    simpa using phaseQ_small 0 (by norm_num) (by norm_num [SYNODIC])
  have hph14 : phaseQ 14 = 14 := by
    simpa using phaseQ_small 14 (by norm_num) (by norm_num [SYNODIC])
  have hph15 : phaseQ 15 = 15 := by
    simpa using phaseQ_small 15 (by norm_num) (by norm_num [SYNODIC])
  have hph16 : phaseQ 16 = 16 := by
    simpa using phaseQ_small 16 (by norm_num) (by norm_num [SYNODIC])
  have hf0 : f64ToU8 0 = 0 := by simpa using f64ToU8_ofNat 0 (by norm_num)
  have hf14 : f64ToU8 14 = 14 := by simpa using f64ToU8_ofNat 14 (by norm_num)
  have hf15 : f64ToU8 15 = 15 := by simpa using f64ToU8_ofNat 15 (by norm_num)
  have hf16 : f64ToU8 16 = 16 := by simpa using f64ToU8_ofNat 16 (by norm_num)
  refine ⟨?_, ?_, ?_, ?_⟩
  · show moonBucket (f64ToU8 (phaseQ 0)) = ("@", "New Moon")
    rw [hph0, hf0]
    rfl
  · show moonBucket (f64ToU8 (phaseQ 14)) = ("O", "Full Moon")
    rw [hph14, hf14]
    rfl
  · show moonBucket (f64ToU8 (phaseQ 15)) = ("O", "Full Moon")
    rw [hph15, hf15]
    rfl
  · show moonBucket (f64ToU8 (phaseQ 16)) = ("O", "Full Moon")
    rw [hph16, hf16]
    rfl

/-! ### Daylight bar at sunrise 6.0 and sunset 18.0 (C8) -/

/-- Claim C8: for sunrise `6.0` and sunset `18.0` (width 48), the bar has 48
columns, the sunrise marker sits at column `12 = floor (6/24*48)`, the
sunset marker at column `36 = floor (18/24*48)`, every column strictly
between 12 and 36 carries the daytime glyph `=`, and every column outside
the sunrise-to-sunset span carries the night glyph `-`. -/
theorem daylight_bar_markers :
    (daylightBarCols 6 18).length = 48 ∧
      (daylightBarCols 6 18).getD 12 'x' = '>' ∧
      (daylightBarCols 6 18).getD 36 'x' = '<' ∧
      (∀ i : Fin 23, (daylightBarCols 6 18).getD (13 + i.val) 'x' = '=') ∧
      (∀ i : Fin 12, (daylightBarCols 6 18).getD i.val 'x' = '-') ∧
      (∀ i : Fin 11, (daylightBarCols 6 18).getD (37 + i.val) 'x' = '-') := by
  have hsr : f64ToUsize ((6 : ℚ) / 24 * (CHARS_PER_LINE : ℚ)) = 12 := by
    have h1 : (6 : ℚ) / 24 * (CHARS_PER_LINE : ℚ) = 12 := by norm_num [CHARS_PER_LINE]
    rw [f64ToUsize, h1, if_neg (by norm_num), qtrunc, if_pos (by norm_num),
      show ⌊(12 : ℚ)⌋ = 12 by norm_num]
    rfl
  have hss : f64ToUsize ((18 : ℚ) / 24 * (CHARS_PER_LINE : ℚ)) = 36 := by
    have h1 : (18 : ℚ) / 24 * (CHARS_PER_LINE : ℚ) = 36 := by norm_num [CHARS_PER_LINE]
    rw [f64ToUsize, h1, if_neg (by norm_num), qtrunc, if_pos (by norm_num),
      show ⌊(36 : ℚ)⌋ = 36 by norm_num]
    rfl
  have hcond : ∀ col : Nat,
      ((6 : ℚ) < (col : ℚ) / (CHARS_PER_LINE : ℚ) * 24 ∧
        (col : ℚ) / (CHARS_PER_LINE : ℚ) * 24 < 18) ↔ (12 < col ∧ col < 36) := by
    intro col
    have hhour : (col : ℚ) / (CHARS_PER_LINE : ℚ) * 24 = (col : ℚ) / 2 := by
      rw [show (CHARS_PER_LINE : ℚ) = 48 by norm_num [CHARS_PER_LINE]]
      ring
    rw [hhour]
    constructor
    · rintro ⟨h1, h2⟩
      constructor
      · have := (lt_div_iff₀ (by norm_num : (0:ℚ) < 2)).mp h1
        exact_mod_cast this
      · have := (div_lt_iff₀ (by norm_num : (0:ℚ) < 2)).mp h2
        exact_mod_cast this
    · rintro ⟨h1, h2⟩
      constructor
      · rw [lt_div_iff₀ (by norm_num : (0:ℚ) < 2)]
        exact_mod_cast h1
      · rw [div_lt_iff₀ (by norm_num : (0:ℚ) < 2)]
        exact_mod_cast h2
  have heq : daylightBarCols 6 18 = (List.range CHARS_PER_LINE).map
      (fun col => if col = 12 then '>' else if col = 36 then '<'
        else if 12 < col ∧ col < 36 then '=' else '-') := by
    simp only [daylightBarCols, hsr, hss]
    apply List.map_congr_left
    intro col _
    by_cases h12 : col = 12
    · simp [h12]
    · by_cases h36 : col = 36
      · simp [h12, h36]
      · simp only [if_neg h12, if_neg h36, hcond col]
  rw [heq]
  decide

/-! ### The weather handler (C9, C10) -/

/-- Counterexample to C9 as stated: the `weather` handler performs no
geocoding lookup at all — the coordinates are the fixed Berlin constants —
so a "no geocoding match" situation cannot arise; the only lookup that can
fail is the single forecast fetch/parse, and on that concrete failing input
the endpoint returns BAD_GATEWAY (with zero sink operations), not the
distinct NotFound error the claim requires. -/
theorem weather_no_notfound_cex :
    weatherRun none = some ([], some Status.badGateway) ∧
      Status.badGateway ≠ Status.notFound :=
  ⟨rfl, by decide⟩

/-- Claim C9 (amended): the `weather` endpoint has no geocoding step and
never returns NotFound on any fetch outcome; when the upstream forecast
fetch or parse fails it returns BAD_GATEWAY and performs zero OutputSink
operations. -/
theorem weather_never_notfound (fetch : Option WeatherResponse)
    (res : List SinkOp × Option Status) (h : weatherRun fetch = some res) :
    res.2 ≠ some Status.notFound ∧
      (fetch = none → res = ([], some Status.badGateway)) := by
  cases fetch with
  | none =>
    rw [weatherRun] at h
    have hres : res = ([], some Status.badGateway) := (Option.some_inj.mp h).symm
    subst hres
    exact ⟨by decide, fun _ => rfl⟩
  | some r =>
    rw [weatherRun] at h
    constructor
    · obtain ⟨ops, _, hres⟩ := Option.map_eq_some'.mp h
      rw [← hres]
      simp
    · intro hc
      exact absurd hc (by simp)

/-- Witness for the amended C9 at the concrete failing-fetch input. -/
theorem weather_never_notfound_witness :
    (([], some Status.badGateway) : List SinkOp × Option Status).2
        ≠ some Status.notFound ∧
      ((none : Option WeatherResponse) = none →
        (([], some Status.badGateway) : List SinkOp × Option Status)
          = ([], some Status.badGateway)) :=
  weather_never_notfound none ([], some Status.badGateway) rfl

/-- Claim C10: the weather handler reads element 0 of every `daily` array of
a parsed response; its document composition is panic-free (`isSome`,
i.e. no out-of-bounds index) exactly when every one of the twelve `daily`
arrays is non-empty. -/
theorem weather_doc_panic_free_iff (r : WeatherResponse) :
    (weatherDoc r).isSome = true ↔
      (r.daily.time ≠ [] ∧ r.daily.temperature_2m_max ≠ [] ∧
        r.daily.temperature_2m_min ≠ [] ∧ r.daily.apparent_temperature_max ≠ [] ∧
        r.daily.apparent_temperature_min ≠ [] ∧
        r.daily.precipitation_probability_max ≠ [] ∧ r.daily.weather_code ≠ [] ∧
        r.daily.sunrise ≠ [] ∧ r.daily.sunset ≠ [] ∧ r.daily.uv_index_max ≠ [] ∧
        r.daily.wind_speed_10m_max ≠ [] ∧ r.daily.wind_gusts_10m_max ≠ []) := by
  obtain ⟨⟨time, tmax, tmin, amax, amin, prec, code, sr, ss, uv, ws, wg⟩, _⟩ := r
  cases code with
  | nil => (simp only [weatherDoc, List.get?, Option.some_bind, Option.none_bind, Option.map_some', Option.isSome_some, Option.isSome_none]; simp)
  | cons code0 codeT =>
    cases sr with
    | nil => (simp only [weatherDoc, List.get?, Option.some_bind, Option.none_bind, Option.map_some', Option.isSome_some, Option.isSome_none]; simp)
    | cons sr0 srT =>
      cases ss with
      | nil => (simp only [weatherDoc, List.get?, Option.some_bind, Option.none_bind, Option.map_some', Option.isSome_some, Option.isSome_none]; simp)
      | cons ss0 ssT =>
        cases time with
        | nil => (simp only [weatherDoc, List.get?, Option.some_bind, Option.none_bind, Option.map_some', Option.isSome_some, Option.isSome_none]; simp)
        | cons time0 timeT =>
          cases tmax with
          | nil => (simp only [weatherDoc, List.get?, Option.some_bind, Option.none_bind, Option.map_some', Option.isSome_some, Option.isSome_none]; simp)
          | cons tmax0 tmaxT =>
            cases tmin with
            | nil => (simp only [weatherDoc, List.get?, Option.some_bind, Option.none_bind, Option.map_some', Option.isSome_some, Option.isSome_none]; simp)
            | cons tmin0 tminT =>
              cases amax with
              | nil => (simp only [weatherDoc, List.get?, Option.some_bind, Option.none_bind, Option.map_some', Option.isSome_some, Option.isSome_none]; simp)
              | cons amax0 amaxT =>
                cases amin with
                | nil => (simp only [weatherDoc, List.get?, Option.some_bind, Option.none_bind, Option.map_some', Option.isSome_some, Option.isSome_none]; simp)
                | cons amin0 aminT =>
                  cases prec with
                  | nil => (simp only [weatherDoc, List.get?, Option.some_bind, Option.none_bind, Option.map_some', Option.isSome_some, Option.isSome_none]; simp)
                  | cons prec0 precT =>
                    cases uv with
                    | nil => (simp only [weatherDoc, List.get?, Option.some_bind, Option.none_bind, Option.map_some', Option.isSome_some, Option.isSome_none]; simp)
                    | cons uv0 uvT =>
                      cases ws with
                      | nil => (simp only [weatherDoc, List.get?, Option.some_bind, Option.none_bind, Option.map_some', Option.isSome_some, Option.isSome_none]; simp)
                      | cons ws0 wsT =>
                        cases wg with
                        | nil => (simp only [weatherDoc, List.get?, Option.some_bind, Option.none_bind, Option.map_some', Option.isSome_some, Option.isSome_none]; simp)
                        | cons wg0 wgT =>
                          (simp only [weatherDoc, List.get?, Option.some_bind, Option.none_bind, Option.map_some', Option.isSome_some, Option.isSome_none]; simp)
